import Mathlib

/-!
# TxExecutor: a shallow embedding of the concurrent transaction executor

This file embeds the Go sources of `KirillZiborov/TxExecutor` (package
`txexecutor`, files `cmd/main.go`, `pkg/txexecutor/transfer.go`,
`pkg/txexecutor/updates.go`) and proves properties of the embedding.

Conventions of the embedding:
* Go `uint`/`uint64` values are `Nat`s; arithmetic that wraps in Go is
  written with an explicit `% 2^64`.
* Go `int` values are `Int`s; Go conversions and wrapping signed
  arithmetic are made explicit via `toInt64` / `wrap64` / `toUInt64n`.
* The global `sync.Map` of accounts is an association list
  `Store = List (String × Acct)`; `getA` is the defaulted lookup
  (absent accounts read as balance 0, version 0, matching `ensureAcct`'s
  lazily created zero entry).
* A transaction (`Transaction` interface) is an interaction tree
  `TxProg`: it either finishes with `(updates, err)` or reads an account
  balance and continues.  `runTx` answers all reads of one attempt from a
  single store, recording the version of each account at its first read,
  exactly as `txCtx.GetAccount` does.
* `ExecuteBlock`'s commit phase is modelled by the fuelled loop
  `execLoop`.  Concurrency is reduced to a *schedule*: at each loop
  iteration the pending attempt for index `k` may have been evaluated
  against any earlier committed state (a speculative, possibly stale
  worker run) or against the current state (a fresh run).  Worker-side
  account creation performed by `GetAccount` is applied to the live
  store when the attempt reaches the sequencer.
-/

namespace TxExecutor

/-- `2^64`, the modulus of Go's 64-bit unsigned arithmetic. -/
def W64 : Nat := 2 ^ 64

/-- Go conversion `int(u)` of a `uint` value: reinterpret `u % 2^64` as a
two's-complement signed 64-bit value. -/
def toInt64 (u : Nat) : Int :=
  if u % W64 < 2 ^ 63 then ((u % W64 : Nat) : Int)
  else ((u % W64 : Nat) : Int) - (W64 : Int)

/-- Wrap-around of a signed 64-bit operation result (Go `int` arithmetic
overflows deterministically by wrapping). -/
def wrap64 (z : Int) : Int :=
  (z + 2 ^ 63) % (W64 : Int) - 2 ^ 63

/-- Go conversion `uint(z)` of an `int` value. -/
def toUInt64n (z : Int) : Nat := (z % (W64 : Int)).toNat

/-- `AccountUpdate` (main.go): one balance delta emitted by a transaction. -/
structure AccountUpdate where
  name : String
  balanceChange : Int
deriving DecidableEq, Repr

/-- Internal account representation `acct` (main.go): balance and version
(the mutex is represented by the lock-event trace of `commitTxT`). -/
structure Acct where
  bal : Nat
  ver : Nat
deriving DecidableEq, Repr

/-- The zero-balance, zero-version account created by `ensureAcct`. -/
def Acct.zero : Acct := ⟨0, 0⟩

/-- The global `state` map, as an association list from name to account. -/
abbrev Store := List (String × Acct)

/-- Association-list lookup (first entry wins, mirroring map semantics;
`ensureAcct` never inserts a duplicate key). -/
def alookup {α : Type} : List (String × α) → String → Option α
  | [], _ => none
  | p :: l, n => if p.1 = n then some p.2 else alookup l n

/-- Defaulted account read: an absent account reads as the zero account,
matching the entry `ensureAcct` would create for it. -/
def getA (s : Store) (n : String) : Acct := (alookup s n).getD Acct.zero

/-- `ensureAcct` (main.go): return the store, creating a zero entry for
`n` if absent. -/
def ensureAcct (s : Store) (n : String) : Store :=
  if (alookup s n).isSome then s else s ++ [(n, Acct.zero)]

/-- Ensure a list of names in order. -/
def ensureAll (s : Store) (ns : List String) : Store := ns.foldl ensureAcct s

/-- Overwrite the account stored under `n` (used only after `ensureAcct`,
so `n` is present). -/
def setA (s : Store) (n : String) (a : Acct) : Store :=
  s.map (fun p => if p.1 = n then (n, a) else p)

/-- The read map of one transaction attempt: name to version at first
read, in first-read order (`txCtx.reads`). -/
abbrev Reads := List (String × Nat)

/-- `txCtx.GetAccount` (main.go): ensure the account, record the version
if this is the first read of `n` in this attempt, and return the *current*
balance together with the updated read map and store. -/
def getAccount (s : Store) (reads : Reads) (n : String) :
    (Nat × Reads) × Store :=
  let s' := ensureAcct s n
  let a := getA s' n
  let reads' := if (alookup reads n).isSome then reads
                else reads ++ [(n, a.ver)]
  ((a.bal, reads'), s')

/-- `txResult` (main.go) minus the index: the updates, the read map and
the error flag (`err ≠ nil`) of one finished attempt. -/
structure TxResult where
  updates : List AccountUpdate
  reads : Reads
  err : Bool
deriving DecidableEq, Repr

/-- Outcome of `commitTx`: `conflict` is the `false` return (stale read,
retry); `terminal` and `committed` are the two `true` returns. -/
inductive Outcome where
  | conflict
  | terminal
  | committed
deriving DecidableEq, Repr

/-- A lock or unlock event on one account's mutex. -/
inductive LockEv where
  | lock (n : String)
  | unlock (n : String)
deriving DecidableEq, Repr

/-- Lexicographic comparison of character lists by code point: the order
`sort.Strings` uses on names (byte-lexicographic in Go; identical on the
ASCII names this program handles). -/
def sLtB : List Char → List Char → Bool
  | _, [] => false
  | [], _ :: _ => true
  | a :: as, b :: bs =>
    if a.toNat < b.toNat then true
    else if b.toNat < a.toNat then false
    else sLtB as bs

/-- Strict lexicographic order on names. -/
def strLt (a b : String) : Prop := sLtB a.data b.data = true

/-- The corresponding reflexive order, used as the sorting relation. -/
def strLe (a b : String) : Prop := ¬strLt b a

instance : DecidableRel strLt := fun a b =>
  inferInstanceAs (Decidable (sLtB a.data b.data = true))

instance : DecidableRel strLe := fun a b =>
  inferInstanceAs (Decidable (¬strLt b a))

instance : DecidableRel (fun p q : String × Nat => strLe p.1 q.1) := fun p q =>
  inferInstanceAs (Decidable (strLe p.1 q.1))

/-- The sorted duplicate-free list of lock-acquisition targets of
`commitTx` (main.go, `accSet` + `names`): the union of read-set names and
update names, sorted ascending. -/
def lockNames (r : TxResult) : List String :=
  ((r.reads.map Prod.fst ++ r.updates.map AccountUpdate.name).dedup).insertionSort strLe

/-- One step of the commit loop of `commitTx` (main.go lines 249-253):
`ac.bal += uint(u.BalanceChange); ac.ver++` with Go unsigned wrapping. -/
def applyUpd (s : Store) (u : AccountUpdate) : Store :=
  let s' := ensureAcct s u.name
  let a := getA s' u.name
  setA s' u.name ⟨(a.bal + toUInt64n u.balanceChange) % W64, a.ver + 1⟩

/-- `commitTx` (main.go) with its lock/unlock event trace.  The stages in
source order: ensure-and-lock every touched account in ascending name
order; version-check the read set; short-circuit on error or empty
updates; per-update balance check; apply.  Every return path unlocks the
full acquired list. -/
def commitTxT (r : TxResult) (s : Store) : (Outcome × Store) × List LockEv :=
  let ns := lockNames r
  let s1 := ensureAll s ns
  let evs := ns.map LockEv.lock ++ ns.map LockEv.unlock
  if ∃ p ∈ r.reads, (getA s1 p.1).ver ≠ p.2 then
    ((Outcome.conflict, s1), evs)
  else if r.err = true ∨ r.updates = [] then
    ((Outcome.terminal, s1), evs)
  else if ∃ u ∈ r.updates, wrap64 (toInt64 (getA s1 u.name).bal + u.balanceChange) < 0 then
    ((Outcome.terminal, s1), evs)
  else
    ((Outcome.committed, r.updates.foldl applyUpd s1), evs)

/-- `commitTx` without the event trace. -/
def commitTx (r : TxResult) (s : Store) : Outcome × Store := (commitTxT r s).1

/-- A transaction (`Transaction` interface) as an interaction tree: it
either returns `(updates, err-flag)` or reads one account's balance and
continues.  This is the shape every `Updates` implementation has. -/
inductive TxProg where
  | done (ups : List AccountUpdate) (err : Bool) : TxProg
  | read (n : String) (k : Nat → TxProg) : TxProg

/-- Run one attempt of a transaction, answering every `GetAccount` from
the single store `s` (the state the worker evaluated against) and
recording the version of each account at its first read, as
`txCtx.GetAccount` does.  Returns `((updates, err), reads)`. -/
def runTx : TxProg → Store → Reads → (List AccountUpdate × Bool) × Reads
  | .done ups err, _, reads => ((ups, err), reads)
  | .read n k, s, reads =>
    let a := getA s n
    let reads' := if (alookup reads n).isSome then reads
                  else reads ++ [(n, a.ver)]
    runTx (k a.bal) s reads'

/-- Package an attempt's run into a `txResult`. -/
def mkResult (o : (List AccountUpdate × Bool) × Reads) : TxResult :=
  ⟨o.1.1, o.2, o.1.2⟩

/-- The commit phase of `ExecuteBlock` (main.go), fuelled.  `k` is the
commit cursor, `hist` the list of all past observable states (the chain
which speculative attempts may have been evaluated against), `s` the
current state.  `sched` abstracts worker scheduling: at the iteration
with a given fuel value it picks which past state the pending attempt for
`k` was evaluated against (`none` / out of range means the attempt is
fresh, i.e. evaluated against the current state).  A conflicting attempt
is re-dispatched (retry with the next schedule entry); a finalized one
advances `k`.  Worker-side account creation by the attempt's reads is
applied to the live store when the result reaches the sequencer. -/
def pickState (sched : Nat → Option Nat) (fuel : Nat) (hist : List Store)
    (s : Store) : Store :=
  match sched fuel with
  | some i => hist.getD i s
  | none => s

def execLoop (txs : List TxProg) (sched : Nat → Option Nat) :
    Nat → Nat → List Store → Store → Option Store
  | 0, _, _, _ => none
  | fuel + 1, k, hist, s =>
    if h : k < txs.length then
      let r := mkResult (runTx (txs.get ⟨k, h⟩) (pickState sched (fuel + 1) hist s) [])
      let s1 := ensureAll s (r.reads.map Prod.fst)
      let oc := commitTx r s1
      if oc.1 = Outcome.conflict then
        execLoop txs sched fuel k (hist ++ [oc.2]) oc.2
      else
        execLoop txs sched fuel (k + 1) (hist ++ [oc.2]) oc.2
    else
      some s

/-- `ExecuteBlock` (main.go) on an initial store: run the commit loop
from cursor 0.  The result is `none` only when the fuel is exhausted
(the Go loop simply keeps retrying). -/
def executeBlock (txs : List TxProg) (sched : Nat → Option Nat)
    (fuel : Nat) (s₀ : Store) : Option Store :=
  execLoop txs sched fuel 0 [s₀] s₀

/-- The schedule in which every attempt is evaluated against the current
committed state (no stale speculation). -/
def freshSched : Nat → Option Nat := fun _ => none

/-- Final-state collection of `ExecuteBlock` (main.go lines 182-188):
the `(name, balance)` pairs sorted ascending by name. -/
def snapshot (s : Store) : List (String × Nat) :=
  (s.map (fun p => (p.1, p.2.bal))).insertionSort (fun a b => strLe a.1 b.1)

/-- One step of the sequential evaluator that mirrors what the executor
does to a fresh (commit-time) attempt: run `Updates` against the current
state, apply the worker-side creations, then `commitTx`. -/
def seqStepA (s : Store) (t : TxProg) : Store :=
  let r := mkResult (runTx t s [])
  let s1 := ensureAll s (r.reads.map Prod.fst)
  (commitTx r s1).2

/-- The sequential evaluator with the executor's full skip conditions
(error, empty update list, or failed per-delta balance check). -/
def seqEvalA (txs : List TxProg) (s : Store) : Store := txs.foldl seqStepA s

/-- The sequential evaluator exactly as the specification's determinism
sentence words it: apply each transaction's updates in block order,
skipping only those whose `Updates` returned an error or an empty update
list (reads still create accounts, as in scenario 6 of the spec). -/
def seqStepClaim (s : Store) (t : TxProg) : Store :=
  let o := runTx t s []
  let s1 := ensureAll s (o.2.map Prod.fst)
  if o.1.2 = true ∨ o.1.1 = [] then s1
  else o.1.1.foldl applyUpd s1

/-- Sequential evaluator of the claim's wording over a block. -/
def seqEvalClaim (txs : List TxProg) (s : Store) : Store := txs.foldl seqStepClaim s

/-- `Transfer.Updates` (transfer.go): read `from`; error on insufficient
balance; otherwise emit `-value` to `from` and `+value` to `to`, with
Go's `int(...)` conversions and wrapping negation. -/
def transferP (f t : String) (v : Nat) : TxProg :=
  .read f (fun bal =>
    if bal < v then .done [] true
    else .done [⟨f, wrap64 (-(toInt64 v))⟩, ⟨t, toInt64 v⟩] false)

/-- `Deposit.Updates` (updates.go): no reads; error on zero amount;
otherwise credit `to`. -/
def depositP (t : String) (amount : Nat) : TxProg :=
  if amount = 0 then .done [] true
  else .done [⟨t, toInt64 amount⟩] false

/-- `Withdraw.Updates` (updates.go): read `from`; error on insufficient
funds; otherwise debit `from`. -/
def withdrawP (f : String) (amount : Nat) : TxProg :=
  .read f (fun bal =>
    if bal < amount then .done [] true
    else .done [⟨f, wrap64 (-(toInt64 amount))⟩] false)

/-- `BatchTransfer.Updates` (updates.go): read `from`; `total` is the
wrapping unsigned product `uint(len(tos)) * amount`; error when the
balance is below `total`; otherwise debit `total` and credit each
recipient in order. -/
def batchTransferP (f : String) (tos : List String) (amount : Nat) : TxProg :=
  .read f (fun bal =>
    let total := (tos.length % W64) * amount % W64
    if bal < total then .done [] true
    else .done (⟨f, wrap64 (-(toInt64 total))⟩ :: tos.map (fun t => ⟨t, toInt64 amount⟩)) false)

/-- `Interest.Updates` (updates.go): read each account in order and emit
`+ int(balance * rate / 100)` for it (unsigned wrapping product, then
truncating division).  Never errors; an empty account list yields an
empty update list. -/
def interestP (rate : Nat) : List String → List AccountUpdate → TxProg
  | [], ups => .done ups false
  | n :: rest, ups =>
    .read n (fun bal =>
      interestP rate rest (ups ++ [⟨n, toInt64 (bal * rate % W64 / 100)⟩]))

/-- `FeeSplit.Updates` (updates.go): read the account; error when the
balance is below the fee, then when the receiver list is empty; otherwise
debit `fee` and credit `fee / n` to each receiver (remainder discarded). -/
def feeSplitP (acct : String) (fee : Nat) (receivers : List String) : TxProg :=
  .read acct (fun bal =>
    if bal < fee then .done [] true
    else if receivers.length = 0 then .done [] true
    else
      let per := fee / receivers.length
      .done (⟨acct, wrap64 (-(toInt64 fee))⟩ :: receivers.map (fun r => ⟨r, toInt64 per⟩)) false)

/-- Sum of the `BalanceChange` values of an update list, as an exact
integer. -/
def sumDeltas (ups : List AccountUpdate) : Int :=
  (ups.map AccountUpdate.balanceChange).sum

/-- The version-and-balance relation between an earlier and a later
observable state of one block: versions never decrease, and an unchanged
version pins the balance (every committed balance write bumps the
version). -/
def chainLe (s t : Store) : Prop :=
  ∀ n, (getA s n).ver ≤ (getA t n).ver
    ∧ ((getA s n).ver = (getA t n).ver → (getA s n).bal = (getA t n).bal)

/- Concrete inputs used by counterexamples and witnesses. -/

/-- A custom transaction that emits a single debit without any read. -/
def debitOnlyP : TxProg := TxProg.done [⟨"A", -5⟩] false

/-- A transaction that reads `Z` only when it observes a positive balance
on `A`, then fails; used to exhibit account creation by a discarded
speculative attempt. -/
def condReadP : TxProg :=
  TxProg.read "A" (fun b =>
    if 0 < b then TxProg.read "Z" (fun _ => TxProg.done [] true)
    else TxProg.done [] true)

/-- Block for the speculative-creation counterexample. -/
def cexBlock : List TxProg := [withdrawP "A" 1, condReadP]

/-- Its initial store. -/
def cexStore : Store := [("A", ⟨1, 0⟩)]

/-- Schedule that evaluates the second transaction's first attempt
against the initial state (a stale speculative run). -/
def cexSched : Nat → Option Nat := fun fuel => if fuel = 3 then some 0 else none

/-- A result whose duplicate deltas each pass the per-delta balance check
but sum below the balance. -/
def c2res : TxResult := ⟨[⟨"A", -3⟩, ⟨"A", -3⟩], [], false⟩

/-- Its store: account `A` holds 5. -/
def c2store : Store := [("A", ⟨5, 0⟩)]

/-- A result with the same account named twice in the update list. -/
def c4res : TxResult := ⟨[⟨"A", 1⟩, ⟨"A", 1⟩], [], false⟩

/-- A result whose update names an absent account and fails the balance
check. -/
def c6res : TxResult := ⟨[⟨"Z", -5⟩], [], false⟩

/-- Store for the stale-read counterexample of the read-snapshot claim:
the state at the moment of the first read. -/
def c3store0 : Store := [("A", ⟨5, 0⟩)]

/-- The state after an interleaved commit changed `A`. -/
def c3store1 : Store := [("A", ⟨7, 1⟩)]

/-- Store for the conservation counterexample: `A` holds `2^63`. -/
def c8store : Store := [("A", ⟨2 ^ 63, 0⟩)]

section Lemmas

lemma alookup_append {α : Type} (l₁ l₂ : List (String × α)) (n : String) :
    alookup (l₁ ++ l₂) n = (alookup l₁ n).or (alookup l₂ n) := by
  induction l₁ with
  | nil => simp [alookup]
  | cons p l ih =>
    by_cases h : p.1 = n
    · simp [alookup, h]
    · simpa [alookup, h] using ih

lemma alookup_eq_some_mem {α : Type} {l : List (String × α)} {n : String} {a : α}
    (h : alookup l n = some a) : (n, a) ∈ l := by
  induction l with
  | nil => simp [alookup] at h
  | cons p l ih =>
    by_cases hp : p.1 = n
    · rw [alookup, if_pos hp] at h
      cases p with
      | mk x b =>
        cases Option.some.inj h
        cases hp
        exact List.mem_cons_self _ _
    · rw [alookup, if_neg hp] at h
      exact List.mem_cons_of_mem _ (ih h)

lemma getA_ensureAcct (s : Store) (n m : String) :
    getA (ensureAcct s n) m = getA s m := by
  unfold ensureAcct
  split
  · rfl
  · rename_i hnone
    rw [Option.not_isSome_iff_eq_none] at hnone
    unfold getA
    rw [alookup_append]
    by_cases h : m = n
    · subst h
      rw [hnone]
      simp [alookup, Acct.zero]
    · have : alookup [(n, Acct.zero)] m = none := by
        simp [alookup, Ne.symm h]
      rw [this]
      cases alookup s m <;> rfl

lemma getA_ensureAll (s : Store) (l : List String) (m : String) :
    getA (ensureAll s l) m = getA s m := by
  induction l generalizing s with
  | nil => rfl
  | cons a l ih => rw [ensureAll, List.foldl_cons, ← ensureAll, ih, getA_ensureAcct]

lemma alookup_ensureAcct_self (s : Store) (n : String) :
    alookup (ensureAcct s n) n = some (getA s n) := by
  unfold ensureAcct
  split
  · rename_i h
    unfold getA
    cases hh : alookup s n with
    | none => rw [hh] at h; simp at h
    | some a => simp
  · rename_i h
    rw [Option.not_isSome_iff_eq_none] at h
    rw [alookup_append, h]
    unfold getA
    rw [h]
    simp [alookup]

lemma setA_cons (p : String × Acct) (l : Store) (n : String) (a : Acct) :
    setA (p :: l) n a = (if p.1 = n then (n, a) else p) :: setA l n a := rfl

lemma alookup_setA_self {s : Store} {n : String} (h : (alookup s n).isSome)
    (a : Acct) : alookup (setA s n a) n = some a := by
  induction s with
  | nil => simp [alookup] at h
  | cons p l ih =>
    rw [setA_cons]
    by_cases hp : p.1 = n
    · rw [if_pos hp]
      show (if n = n then some a else alookup (setA l n a) n) = some a
      rw [if_pos rfl]
    · rw [if_neg hp]
      show (if p.1 = n then some p.2 else alookup (setA l n a) n) = some a
      rw [if_neg hp]
      exact ih (by simpa [alookup, hp] using h)

lemma alookup_setA_ne {s : Store} {n m : String} (h : m ≠ n) (a : Acct) :
    alookup (setA s n a) m = alookup s m := by
  induction s with
  | nil => rfl
  | cons p l ih =>
    rw [setA_cons]
    conv_rhs => rw [alookup]
    by_cases hp : p.1 = n
    · rw [if_pos hp]
      show (if n = m then some a else alookup (setA l n a) m) = _
      rw [if_neg (Ne.symm h), hp, if_neg (Ne.symm h)]
      exact ih
    · rw [if_neg hp]
      show (if p.1 = m then some p.2 else alookup (setA l n a) m) = _
      by_cases hm : p.1 = m
      · rw [if_pos hm, if_pos hm]
      · rw [if_neg hm, if_neg hm]
        exact ih

lemma getA_applyUpd (s : Store) (u : AccountUpdate) (n : String) :
    getA (applyUpd s u) n =
      if n = u.name then
        ⟨((getA s u.name).bal + toUInt64n u.balanceChange) % W64, (getA s u.name).ver + 1⟩
      else getA s n := by
  unfold applyUpd
  by_cases h : n = u.name
  · have hsome : (alookup (ensureAcct s u.name) u.name).isSome := by
      rw [alookup_ensureAcct_self]; rfl
    rw [if_pos h, h]
    show (alookup (setA (ensureAcct s u.name) u.name _) u.name).getD Acct.zero = _
    rw [alookup_setA_self hsome]
    have hg : getA (ensureAcct s u.name) u.name = getA s u.name :=
      getA_ensureAcct s u.name u.name
    rw [Option.getD_some, hg]
  · rw [if_neg h]
    show (alookup (setA (ensureAcct s u.name) u.name _) n).getD Acct.zero = _
    rw [alookup_setA_ne h]
    exact getA_ensureAcct s u.name n

lemma getA_foldl_applyUpd_not_mem {ups : List AccountUpdate} {n : String}
    (h : n ∉ ups.map AccountUpdate.name) (s : Store) :
    getA (ups.foldl applyUpd s) n = getA s n := by
  induction ups generalizing s with
  | nil => rfl
  | cons u l ih =>
    rw [List.map_cons] at h
    have hne : n ≠ u.name := by
      intro he
      exact h (by rw [he]; exact List.mem_cons_self _ _)
    rw [List.foldl_cons, ih (fun hm => h (List.mem_cons_of_mem _ hm)),
      getA_applyUpd, if_neg hne]

lemma ver_foldl_applyUpd (ups : List AccountUpdate) (s : Store) (n : String) :
    (getA (ups.foldl applyUpd s) n).ver
      = (getA s n).ver + (ups.map AccountUpdate.name).count n := by
  induction ups generalizing s with
  | nil => simp
  | cons u l ih =>
    rw [List.foldl_cons, ih, getA_applyUpd, List.map_cons, List.count_cons]
    by_cases h : n = u.name
    · rw [if_pos h, h]
      simp [eq_comm]
      omega
    · rw [if_neg h]
      simp [Ne.symm h]

lemma chainLe_refl (s : Store) : chainLe s s := fun _ => ⟨le_refl _, fun _ => rfl⟩

lemma chainLe_trans {s t u : Store} (h1 : chainLe s t) (h2 : chainLe t u) :
    chainLe s u := by
  intro n
  obtain ⟨l1, b1⟩ := h1 n
  obtain ⟨l2, b2⟩ := h2 n
  refine ⟨le_trans l1 l2, fun he => ?_⟩
  have hv1 : (getA s n).ver = (getA t n).ver := by omega
  rw [b1 hv1, b2 (by omega)]

lemma chainLe_congr {s t s' t' : Store} (hs : ∀ n, getA s' n = getA s n)
    (ht : ∀ n, getA t' n = getA t n) (hc : chainLe s t) : chainLe s' t' := by
  intro n
  rw [hs n, ht n]
  exact hc n

lemma chainLe_applyUpd (s : Store) (u : AccountUpdate) :
    chainLe s (applyUpd s u) := by
  intro n
  rw [getA_applyUpd]
  by_cases h : n = u.name
  · rw [if_pos h, h]
    exact ⟨Nat.le_succ _, fun he => absurd he (by simp)⟩
  · rw [if_neg h]
    exact ⟨le_refl _, fun _ => rfl⟩

lemma chainLe_foldl_applyUpd (ups : List AccountUpdate) (s : Store) :
    chainLe s (ups.foldl applyUpd s) := by
  induction ups generalizing s with
  | nil => exact chainLe_refl s
  | cons u l ih =>
    rw [List.foldl_cons]
    exact chainLe_trans (chainLe_applyUpd s u) (ih (applyUpd s u))

lemma commitTx_stale {r : TxResult} {s : Store}
    (h : ∃ p ∈ r.reads, (getA s p.1).ver ≠ p.2) :
    commitTx r s = (Outcome.conflict, ensureAll s (lockNames r)) := by
  simp only [commitTx, commitTxT]
  rw [if_pos (by simpa only [getA_ensureAll] using h)]

lemma commitTx_skip {r : TxResult} {s : Store}
    (h : ¬∃ p ∈ r.reads, (getA s p.1).ver ≠ p.2)
    (he : r.err = true ∨ r.updates = []) :
    commitTx r s = (Outcome.terminal, ensureAll s (lockNames r)) := by
  simp only [commitTx, commitTxT]
  rw [if_neg (by simpa only [getA_ensureAll] using h), if_pos he]

lemma commitTx_balfail {r : TxResult} {s : Store}
    (h : ¬∃ p ∈ r.reads, (getA s p.1).ver ≠ p.2)
    (he : ¬(r.err = true ∨ r.updates = []))
    (hb : ∃ u ∈ r.updates,
      wrap64 (toInt64 (getA s u.name).bal + u.balanceChange) < 0) :
    commitTx r s = (Outcome.terminal, ensureAll s (lockNames r)) := by
  simp only [commitTx, commitTxT]
  rw [if_neg (by simpa only [getA_ensureAll] using h), if_neg he,
    if_pos (by simpa only [getA_ensureAll] using hb)]

lemma commitTx_commit {r : TxResult} {s : Store}
    (h : ¬∃ p ∈ r.reads, (getA s p.1).ver ≠ p.2)
    (he : ¬(r.err = true ∨ r.updates = []))
    (hb : ¬∃ u ∈ r.updates,
      wrap64 (toInt64 (getA s u.name).bal + u.balanceChange) < 0) :
    commitTx r s
      = (Outcome.committed, r.updates.foldl applyUpd (ensureAll s (lockNames r))) := by
  simp only [commitTx, commitTxT]
  rw [if_neg (by simpa only [getA_ensureAll] using h), if_neg he,
    if_neg (by simpa only [getA_ensureAll] using hb)]

lemma commitTx_not_committed_store {r : TxResult} {s : Store}
    (h : (commitTx r s).1 ≠ Outcome.committed) :
    (commitTx r s).2 = ensureAll s (lockNames r) := by
  by_cases h1 : ∃ p ∈ r.reads, (getA s p.1).ver ≠ p.2
  · rw [commitTx_stale h1]
  · by_cases h2 : r.err = true ∨ r.updates = []
    · rw [commitTx_skip h1 h2]
    · by_cases h3 : ∃ u ∈ r.updates,
        wrap64 (toInt64 (getA s u.name).bal + u.balanceChange) < 0
      · rw [commitTx_balfail h1 h2 h3]
      · exact absurd (by rw [commitTx_commit h1 h2 h3]) h

lemma chainLe_commitTx (r : TxResult) (s : Store) :
    chainLe s (commitTx r s).2 := by
  by_cases h : (commitTx r s).1 = Outcome.committed
  · by_cases h1 : ∃ p ∈ r.reads, (getA s p.1).ver ≠ p.2
    · rw [commitTx_stale h1] at h
      exact absurd h (by simp)
    · by_cases h2 : r.err = true ∨ r.updates = []
      · rw [commitTx_skip h1 h2] at h
        exact absurd h (by simp)
      · by_cases h3 : ∃ u ∈ r.updates,
          wrap64 (toInt64 (getA s u.name).bal + u.balanceChange) < 0
        · rw [commitTx_balfail h1 h2 h3] at h
          exact absurd h (by simp)
        · rw [commitTx_commit h1 h2 h3]
          refine chainLe_trans ?_
            (chainLe_foldl_applyUpd r.updates (ensureAll s (lockNames r)))
          exact chainLe_congr (fun _ => rfl) (getA_ensureAll s (lockNames r))
            (chainLe_refl s)
  · rw [commitTx_not_committed_store h]
    exact chainLe_congr (fun _ => rfl) (getA_ensureAll s (lockNames r))
      (chainLe_refl s)

lemma runTx_reads_append (t : TxProg) : ∀ (s : Store) (acc : Reads),
    ∃ u, (runTx t s acc).2 = acc ++ u := by
  induction t with
  | done ups err => exact fun s acc => ⟨[], by simp [runTx]⟩
  | read n k ih =>
    intro s acc
    simp only [runTx]
    by_cases h : (alookup acc n).isSome
    · rw [if_pos h]
      exact ih _ s acc
    · rw [if_neg h]
      obtain ⟨u, hu⟩ := ih ((getA s n).bal) s (acc ++ [(n, (getA s n).ver)])
      exact ⟨(n, (getA s n).ver) :: u, by rw [hu]; simp⟩

lemma runTx_reads_faithful (t : TxProg) : ∀ (s : Store) (acc : Reads),
    (∀ p ∈ acc, (getA s p.1).ver = p.2) →
    ∀ p ∈ (runTx t s acc).2, (getA s p.1).ver = p.2 := by
  induction t with
  | done ups err =>
    intro s acc h
    simpa [runTx] using h
  | read n k ih =>
    intro s acc h
    simp only [runTx]
    by_cases hm : (alookup acc n).isSome
    · rw [if_pos hm]
      exact ih _ s acc h
    · rw [if_neg hm]
      refine ih _ s _ ?_
      intro p hp
      rcases List.mem_append.1 hp with h1 | h2
      · exact h p h1
      · obtain rfl := List.mem_singleton.1 h2
        rfl

lemma runTx_congr {s s' : Store} (h : ∀ n, getA s' n = getA s n) (t : TxProg) :
    ∀ acc : Reads, runTx t s' acc = runTx t s acc := by
  induction t with
  | done ups err => intro acc; rfl
  | read n k ih =>
    intro acc
    simp only [runTx, h n]
    exact ih _ _

lemma runTx_agree {S C : Store} (hSC : chainLe S C) (t : TxProg) :
    ∀ acc : Reads,
    (∀ p ∈ acc, (getA S p.1).ver = p.2) →
    (∀ p ∈ (runTx t S acc).2, (getA C p.1).ver = p.2) →
    runTx t S acc = runTx t C acc := by
  induction t with
  | done ups err => intro acc _ _; rfl
  | read n k ih =>
    intro acc hacc hval
    by_cases hm : (alookup acc n).isSome
    · obtain ⟨v, hv⟩ := Option.isSome_iff_exists.1 hm
      have hmem : (n, v) ∈ acc := alookup_eq_some_mem hv
      have h1 : (getA S n).ver = v := hacc _ hmem
      have hmem2 : (n, v) ∈ (runTx (TxProg.read n k) S acc).2 := by
        obtain ⟨u, hu⟩ := runTx_reads_append (TxProg.read n k) S acc
        rw [hu]
        exact List.mem_append_left _ hmem
      have h2 : (getA C n).ver = v := hval _ hmem2
      have hb : (getA S n).bal = (getA C n).bal := (hSC n).2 (by rw [h1, h2])
      simp only [runTx]
      rw [if_pos hm, if_pos hm, hb]
      refine ih _ acc hacc ?_
      intro p hp
      apply hval
      simp only [runTx]
      rw [if_pos hm, hb]
      exact hp
    · have hmemS : (n, (getA S n).ver) ∈ (runTx (TxProg.read n k) S acc).2 := by
        obtain ⟨u, hu⟩ :=
          runTx_reads_append (k ((getA S n).bal)) S (acc ++ [(n, (getA S n).ver)])
        simp only [runTx]
        rw [if_neg hm, hu]
        exact List.mem_append_left _
          (List.mem_append_right _ (List.mem_singleton.2 rfl))
      have hvC : (getA C n).ver = (getA S n).ver := hval _ hmemS
      have hb : (getA S n).bal = (getA C n).bal := (hSC n).2 hvC.symm
      simp only [runTx]
      rw [if_neg hm, if_neg hm, hb, hvC]
      refine ih _ _ ?_ ?_
      · intro p hp
        rcases List.mem_append.1 hp with h1 | h2
        · exact hacc p h1
        · obtain rfl := List.mem_singleton.1 h2
          rfl
      · intro p hp
        apply hval
        simp only [runTx]
        rw [if_neg hm, hb]
        exact hp

lemma applyUpd_congr {s s' : Store} (h : ∀ n, getA s' n = getA s n)
    (u : AccountUpdate) : ∀ n, getA (applyUpd s' u) n = getA (applyUpd s u) n := by
  intro n
  rw [getA_applyUpd, getA_applyUpd, h u.name, h n]

lemma foldl_applyUpd_congr {s s' : Store} (h : ∀ n, getA s' n = getA s n)
    (ups : List AccountUpdate) :
    ∀ n, getA (ups.foldl applyUpd s') n = getA (ups.foldl applyUpd s) n := by
  induction ups generalizing s s' with
  | nil => exact h
  | cons u l ih =>
    intro n
    rw [List.foldl_cons, List.foldl_cons]
    exact ih (applyUpd_congr h u) n

lemma commitTx_congr {s s' : Store} (h : ∀ n, getA s' n = getA s n)
    (r : TxResult) :
    (commitTx r s').1 = (commitTx r s).1
      ∧ ∀ n, getA (commitTx r s').2 n = getA (commitTx r s).2 n := by
  have hens : ∀ n, getA (ensureAll s' (lockNames r)) n
      = getA (ensureAll s (lockNames r)) n := by
    intro n
    rw [getA_ensureAll, getA_ensureAll]
    exact h n
  have hex1 : (∃ p ∈ r.reads, (getA s' p.1).ver ≠ p.2)
      ↔ (∃ p ∈ r.reads, (getA s p.1).ver ≠ p.2) := by
    simp only [h]
  have hex3 : (∃ u ∈ r.updates,
        wrap64 (toInt64 (getA s' u.name).bal + u.balanceChange) < 0)
      ↔ (∃ u ∈ r.updates,
        wrap64 (toInt64 (getA s u.name).bal + u.balanceChange) < 0) := by
    simp only [h]
  by_cases h1 : ∃ p ∈ r.reads, (getA s p.1).ver ≠ p.2
  · rw [commitTx_stale h1, commitTx_stale (hex1.2 h1)]
    exact ⟨rfl, hens⟩
  · by_cases h2 : r.err = true ∨ r.updates = []
    · rw [commitTx_skip h1 h2, commitTx_skip (fun hc => h1 (hex1.1 hc)) h2]
      exact ⟨rfl, hens⟩
    · by_cases h3 : ∃ u ∈ r.updates,
        wrap64 (toInt64 (getA s u.name).bal + u.balanceChange) < 0
      · rw [commitTx_balfail h1 h2 h3,
          commitTx_balfail (fun hc => h1 (hex1.1 hc)) h2 (hex3.2 h3)]
        exact ⟨rfl, hens⟩
      · rw [commitTx_commit h1 h2 h3,
          commitTx_commit (fun hc => h1 (hex1.1 hc)) h2 (fun hc => h3 (hex3.1 hc))]
        exact ⟨rfl, foldl_applyUpd_congr hens r.updates⟩

lemma seqStepA_congr {s s' : Store} (h : ∀ n, getA s' n = getA s n)
    (t : TxProg) : ∀ n, getA (seqStepA s' t) n = getA (seqStepA s t) n := by
  have hrun : runTx t s' [] = runTx t s [] := runTx_congr h t []
  intro n
  simp only [seqStepA]
  rw [hrun]
  exact (commitTx_congr (fun m => by rw [getA_ensureAll, getA_ensureAll]; exact h m) _).2 n

lemma seqEvalA_congr {s s' : Store} (h : ∀ n, getA s' n = getA s n)
    (txs : List TxProg) :
    ∀ n, getA (seqEvalA txs s') n = getA (seqEvalA txs s) n := by
  induction txs generalizing s s' with
  | nil => exact h
  | cons t l ih =>
    intro n
    simp only [seqEvalA, List.foldl_cons]
    exact ih (seqStepA_congr h t) n

lemma chainLe_pickState {hist : List Store} {s : Store}
    (hinv : ∀ tt ∈ hist, chainLe tt s) (sched : Nat → Option Nat) (fuel : Nat) :
    chainLe (pickState sched fuel hist s) s := by
  unfold pickState
  cases sched fuel with
  | none => exact chainLe_refl s
  | some i =>
    show chainLe (hist.getD i s) s
    by_cases hi : i < hist.length
    · rw [List.getD_eq_getElem?_getD, List.getElem?_eq_getElem hi]
      exact hinv _ (List.getElem_mem hi)
    · rw [List.getD_eq_getElem?_getD, List.getElem?_eq_none (le_of_not_lt hi)]
      exact chainLe_refl s

lemma fresh_no_conflict (t : TxProg) (s : Store) :
    ¬∃ p ∈ (mkResult (runTx t s [])).reads, (getA s p.1).ver ≠ p.2 := by
  rintro ⟨p, hp, hne⟩
  exact hne (runTx_reads_faithful t s [] (by simp) p hp)

lemma execStep_validated {t : TxProg} {sE s : Store} (hSC : chainLe sE s)
    (hval : ∀ p ∈ (mkResult (runTx t sE [])).reads,
      (getA (ensureAll s ((mkResult (runTx t sE [])).reads.map Prod.fst)) p.1).ver = p.2) :
    runTx t sE [] = runTx t s [] := by
  refine runTx_agree hSC t [] (by simp) ?_
  intro p hp
  have := hval p hp
  rwa [getA_ensureAll] at this

lemma execLoop_getA (txs : List TxProg) (sched : Nat → Option Nat) :
    ∀ (fuel k : Nat) (hist : List Store) (s out : Store),
    (∀ tt ∈ hist, chainLe tt s) →
    execLoop txs sched fuel k hist s = some out →
    ∀ n, getA out n = getA (seqEvalA (txs.drop k) s) n := by
  intro fuel
  induction fuel with
  | zero =>
    intro k hist s out _ h
    exact absurd h (by simp [execLoop])
  | succ fuel ih =>
    intro k hist s out hinv h
    by_cases hk : k < txs.length
    · simp only [execLoop, dif_pos hk] at h
      have hchain : chainLe (pickState sched (fuel + 1) hist s) s :=
        chainLe_pickState hinv sched (fuel + 1)
      set sE := pickState sched (fuel + 1) hist s with hsE
      set tx := txs.get ⟨k, hk⟩ with htx
      set r := mkResult (runTx tx sE []) with hr
      set s1 := ensureAll s (r.reads.map Prod.fst) with hs1
      have hgs1 : ∀ n, getA s1 n = getA s n := fun n =>
        getA_ensureAll s (r.reads.map Prod.fst) n
      by_cases hc : (commitTx r s1).1 = Outcome.conflict
      · rw [if_pos hc] at h
        have hgs2 : ∀ n, getA (commitTx r s1).2 n = getA s n := by
          intro n
          rw [commitTx_not_committed_store (by rw [hc]; simp), getA_ensureAll]
          exact hgs1 n
        have hinv2 : ∀ tt ∈ hist ++ [(commitTx r s1).2], chainLe tt (commitTx r s1).2 := by
          intro tt htt
          rcases List.mem_append.1 htt with h1 | h2
          · exact chainLe_congr (fun _ => rfl) hgs2 (hinv tt h1)
          · obtain rfl := List.mem_singleton.1 h2
            exact chainLe_refl _
        intro n
        rw [ih k _ _ out hinv2 h n]
        exact seqEvalA_congr hgs2 (txs.drop k) n
      · rw [if_neg hc] at h
        have hval : ∀ p ∈ r.reads, (getA s1 p.1).ver = p.2 := by
          by_contra hcon
          push_neg at hcon
          obtain ⟨p, hp, hne⟩ := hcon
          exact hc (by rw [commitTx_stale ⟨p, hp, hne⟩])
        have hagree : runTx tx sE [] = runTx tx s [] :=
          execStep_validated hchain (by rw [← hr, ← hs1]; exact hval)
        have hstep : (commitTx r s1).2 = seqStepA s tx := by
          simp only [seqStepA]
          rw [hs1, hr, hagree]
        have hchain2 : chainLe s (commitTx r s1).2 :=
          chainLe_trans
            (chainLe_congr (fun _ => rfl) hgs1 (chainLe_refl s))
            (chainLe_commitTx r s1)
        have hinv2 : ∀ tt ∈ hist ++ [(commitTx r s1).2], chainLe tt (commitTx r s1).2 := by
          intro tt htt
          rcases List.mem_append.1 htt with h1 | h2
          · exact chainLe_trans (hinv tt h1) hchain2
          · obtain rfl := List.mem_singleton.1 h2
            exact chainLe_refl _
        intro n
        rw [ih (k + 1) _ _ out hinv2 h n, hstep]
        rw [List.drop_eq_getElem_cons hk]
        simp only [seqEvalA, List.foldl_cons]
        rfl
    · simp only [execLoop, dif_neg hk] at h
      obtain rfl := Option.some.inj h
      rw [List.drop_eq_nil_of_le (le_of_not_lt hk)]
      intro n
      rfl

lemma commitTx_conflict_exists {r : TxResult} {s : Store}
    (h : (commitTx r s).1 = Outcome.conflict) :
    ∃ p ∈ r.reads, (getA s p.1).ver ≠ p.2 := by
  by_contra hno
  by_cases h2 : r.err = true ∨ r.updates = []
  · rw [commitTx_skip hno h2] at h
    simp at h
  · by_cases h3 : ∃ u ∈ r.updates,
      wrap64 (toInt64 (getA s u.name).bal + u.balanceChange) < 0
    · rw [commitTx_balfail hno h2 h3] at h
      simp at h
    · rw [commitTx_commit hno h2 h3] at h
      simp at h

lemma execLoop_fresh (txs : List TxProg) :
    ∀ (n k : Nat) (hist : List Store) (s : Store),
    txs.length ≤ k + n →
    execLoop txs freshSched (n + 1) k hist s = some (seqEvalA (txs.drop k) s) := by
  intro n
  induction n with
  | zero =>
    intro k hist s hlen
    have hk : ¬k < txs.length := by omega
    simp only [execLoop, dif_neg hk]
    rw [List.drop_eq_nil_of_le (by omega)]
    rfl
  | succ n ih =>
    intro k hist s hlen
    by_cases hk : k < txs.length
    · rw [execLoop, dif_pos hk]
      have hps : pickState freshSched (n + 1 + 1) hist s = s := rfl
      rw [hps]
      set tx := txs.get ⟨k, hk⟩ with htx
      set r := mkResult (runTx tx s []) with hr
      set s1 := ensureAll s (r.reads.map Prod.fst) with hs1
      have hcne : (commitTx r s1).1 ≠ Outcome.conflict := by
        intro hc
        obtain ⟨p, hp, hne⟩ := commitTx_conflict_exists hc
        rw [hs1, getA_ensureAll] at hne
        exact hne (runTx_reads_faithful tx s [] (by simp) p hp)
      rw [if_neg hcne]
      have hstep : (commitTx r s1).2 = seqStepA s tx := rfl
      rw [hstep, ih (k + 1) (hist ++ [seqStepA s tx]) (seqStepA s tx) (by omega)]
      rw [List.drop_eq_getElem_cons hk]
      simp only [seqEvalA, List.foldl_cons]
      rfl
    · simp only [execLoop, dif_neg hk]
      rw [List.drop_eq_nil_of_le (le_of_not_lt hk)]
      rfl

lemma Int.sub_emod_self_right (a b : Int) : (a - b) % b = a % b := by
  rw [Int.sub_emod, Int.emod_self, sub_zero, Int.emod_emod_of_dvd _ dvd_rfl]

lemma toInt64_emod (u : Nat) : toInt64 u % (W64 : Int) = (u : Int) % (W64 : Int) := by
  have hcast : ((u % W64 : Nat) : Int) = (u : Int) % (W64 : Int) := by
    push_cast
    rfl
  unfold toInt64
  split
  · rw [hcast, Int.emod_emod_of_dvd _ dvd_rfl]
  · rw [hcast, Int.sub_emod_self_right, Int.emod_emod_of_dvd _ dvd_rfl]

lemma wrap64_emod (z : Int) : wrap64 z % (W64 : Int) = z % (W64 : Int) := by
  unfold wrap64
  have h : ((z + 2 ^ 63) % (W64 : Int) - 2 ^ 63) % (W64 : Int)
      = ((z + 2 ^ 63) - 2 ^ 63) % (W64 : Int) := by
    conv_lhs => rw [Int.sub_emod]
    conv_rhs => rw [Int.sub_emod]
    rw [Int.emod_emod_of_dvd _ dvd_rfl]
  rw [h, add_sub_cancel_right]

lemma hW64_int : (W64 : Int) = 2 ^ 64 := by norm_num [W64]

lemma toInt64_eq_of_lt {u : Nat} (h : u < 2 ^ 63) : toInt64 u = u := by
  have hu : u % W64 = u := Nat.mod_eq_of_lt (by simp only [W64]; omega)
  unfold toInt64
  rw [if_pos (by rw [hu]; exact h), hu]

lemma wrap64_eq_of {z : Int} (h1 : -(2 ^ 63) ≤ z) (h2 : z < 2 ^ 63) :
    wrap64 z = z := by
  unfold wrap64
  rw [hW64_int, Int.emod_eq_of_lt (by omega) (by omega)]
  omega

lemma toUInt64n_cast (z : Int) : ((toUInt64n z : Nat) : Int) = z % (W64 : Int) := by
  unfold toUInt64n
  rw [Int.toNat_of_nonneg (Int.emod_nonneg z (by rw [hW64_int]; norm_num))]

lemma wrap64_modEq (z : Int) : wrap64 z ≡ z [ZMOD (W64 : Int)] := wrap64_emod z

lemma toInt64_modEq (u : Nat) : toInt64 u ≡ (u : Int) [ZMOD (W64 : Int)] :=
  toInt64_emod u

lemma mem_lockNames (r : TxResult) (n : String) :
    n ∈ lockNames r
      ↔ n ∈ r.reads.map Prod.fst ∨ n ∈ r.updates.map AccountUpdate.name := by
  unfold lockNames
  rw [(List.perm_insertionSort _ _).mem_iff, List.mem_dedup, List.mem_append]

lemma commitTxT_trace (r : TxResult) (s : Store) :
    (commitTxT r s).2
      = (lockNames r).map LockEv.lock ++ (lockNames r).map LockEv.unlock := by
  simp only [commitTxT]
  split
  · rfl
  · split
    · rfl
    · split <;> rfl

lemma commitTx_getA_not_updated {r : TxResult} {n : String}
    (hu : n ∉ r.updates.map AccountUpdate.name) (s : Store) :
    getA (commitTx r s).2 n = getA s n := by
  by_cases h : (commitTx r s).1 = Outcome.committed
  · by_cases h1 : ∃ p ∈ r.reads, (getA s p.1).ver ≠ p.2
    · rw [commitTx_stale h1] at h
      simp at h
    · by_cases h2 : r.err = true ∨ r.updates = []
      · rw [commitTx_skip h1 h2] at h
        simp at h
      · by_cases h3 : ∃ u ∈ r.updates,
          wrap64 (toInt64 (getA s u.name).bal + u.balanceChange) < 0
        · rw [commitTx_balfail h1 h2 h3] at h
          simp at h
        · rw [commitTx_commit h1 h2 h3]
          show getA (r.updates.foldl applyUpd (ensureAll s (lockNames r))) n = getA s n
          rw [getA_foldl_applyUpd_not_mem hu, getA_ensureAll]
  · rw [commitTx_not_committed_store h, getA_ensureAll]

lemma sum_map_const {α : Type} (l : List α) (c : Int) :
    (l.map (fun _ => c)).sum = l.length * c := by
  induction l with
  | nil => simp
  | cons a l ih =>
    simp [ih]
    ring

lemma natmulmod_cast (a b : Nat) :
    ((a * b % W64 : Nat) : Int) % (W64 : Int)
      = ((a : Int) * b) % (W64 : Int) := by
  push_cast
  rw [Int.emod_emod_of_dvd _ dvd_rfl]

lemma sLtB_irrefl (l : List Char) : sLtB l l = false := by
  induction l with
  | nil => rfl
  | cons a as ih => simp [sLtB, ih]

lemma sLtB_trans {l₁ l₂ l₃ : List Char} (h1 : sLtB l₁ l₂ = true)
    (h2 : sLtB l₂ l₃ = true) : sLtB l₁ l₃ = true := by
  induction l₁ generalizing l₂ l₃ with
  | nil =>
    cases l₃ with
    | nil =>
      cases l₂ with
      | nil => simp [sLtB] at h1
      | cons b bs => simp [sLtB] at h2
    | cons c cs => rfl
  | cons a as ih =>
    cases l₂ with
    | nil => simp [sLtB] at h1
    | cons b bs =>
      cases l₃ with
      | nil => simp [sLtB] at h2
      | cons c cs =>
        simp only [sLtB] at h1 h2 ⊢
        split_ifs at h1 h2 ⊢ <;>
          first
          | rfl
          | omega
          | exact ih h1 h2

lemma sLtB_total_eq {l₁ l₂ : List Char} (h1 : sLtB l₁ l₂ = false)
    (h2 : sLtB l₂ l₁ = false) : l₁ = l₂ := by
  induction l₁ generalizing l₂ with
  | nil =>
    cases l₂ with
    | nil => rfl
    | cons b bs => simp [sLtB] at h1
  | cons a as ih =>
    cases l₂ with
    | nil => simp [sLtB] at h2
    | cons b bs =>
      simp only [sLtB] at h1 h2
      split_ifs at h1 h2 <;> try simp_all
      rename_i hab hba
      have hkey : a.toNat = b.toNat := by omega
      have hch : a = b := Char.eq_of_val_eq (UInt32.ext hkey)
      exact ⟨hch, ih h1 h2⟩

lemma strLe_total (a b : String) : strLe a b ∨ strLe b a := by
  by_cases h : sLtB b.data a.data = true
  · right
    intro hlt
    have := sLtB_trans h hlt
    rw [sLtB_irrefl] at this
    exact absurd this (by simp)
  · exact Or.inl h

lemma strLe_trans {a b c : String} (h1 : strLe a b) (h2 : strLe b c) :
    strLe a c := by
  intro hca
  cases hbc : sLtB b.data c.data with
  | true => exact h1 (sLtB_trans hbc hca)
  | false =>
    have hcb : sLtB c.data b.data = false := by
      cases hx : sLtB c.data b.data with
      | true => exact absurd hx h2
      | false => rfl
    have hdata : b.data = c.data := sLtB_total_eq hbc hcb
    refine h1 ?_
    show sLtB b.data a.data = true
    rw [hdata]
    exact hca

instance : IsTotal String strLe := ⟨strLe_total⟩

instance : IsTrans String strLe := ⟨fun _ _ _ => strLe_trans⟩

lemma strLt_of_le_ne {a b : String} (h1 : strLe a b) (h2 : a ≠ b) :
    strLt a b := by
  cases hx : sLtB a.data b.data with
  | true => exact hx
  | false =>
    have hba : sLtB b.data a.data = false := by
      cases hy : sLtB b.data a.data with
      | true => exact absurd hy h1
      | false => rfl
    exact absurd (String.ext (sLtB_total_eq hx hba)) h2

end Lemmas

/-- C2 (the bug, exhibited): the pre-commit balance check of `commitTx`
validates each delta individually against the unchanged pre-commit
balance, never their per-account sum, so a duplicate-name update list
whose deltas sum below the balance still commits: account `A` holding 5
receives two deltas of −3, every individual check passes, the commit
succeeds, and the stored unsigned balance wraps around to `2^64 − 1`
while the additive per-account sum `5 − 3 − 3 = −1` is negative. -/
theorem c2_negative_balance_bug :
    (commitTx c2res c2store).1 = Outcome.committed
    ∧ (getA (commitTx c2res c2store).2 "A").bal = W64 - 1
    ∧ ((getA c2store "A").bal : Int) + sumDeltas c2res.updates < 0 := by
  decide

/-- C4 (amended): an account's version never decreases across `commitTx`,
and a successful commit increases the version of each account by the
number of update-list entries naming it — which is exactly 1 only when
the name occurs once in the update list. -/
theorem c4_version_increment_amended (r : TxResult) (s : Store) (n : String) :
    (getA s n).ver ≤ (getA (commitTx r s).2 n).ver
    ∧ ((commitTx r s).1 = Outcome.committed →
        (getA (commitTx r s).2 n).ver
          = (getA s n).ver + (r.updates.map AccountUpdate.name).count n) := by
  constructor
  · exact (chainLe_commitTx r s n).1
  · intro hc
    by_cases h1 : ∃ p ∈ r.reads, (getA s p.1).ver ≠ p.2
    · rw [commitTx_stale h1] at hc
      simp at hc
    · by_cases h2 : r.err = true ∨ r.updates = []
      · rw [commitTx_skip h1 h2] at hc
        simp at hc
      · by_cases h3 : ∃ u ∈ r.updates,
          wrap64 (toInt64 (getA s u.name).bal + u.balanceChange) < 0
        · rw [commitTx_balfail h1 h2 h3] at hc
          simp at hc
        · rw [commitTx_commit h1 h2 h3]
          show (getA (r.updates.foldl applyUpd (ensureAll s (lockNames r))) n).ver = _
          rw [ver_foldl_applyUpd]
          rw [getA_ensureAll]

/-- C4 counterexample: one committed result naming `A` twice in its update
list raises `A`'s version from 0 to 2, not by exactly 1. -/
theorem c4_counterexample :
    (commitTx c4res []).1 = Outcome.committed
    ∧ (getA (commitTx c4res []).2 "A").ver = 2
    ∧ (getA ([] : Store) "A").ver = 0
    ∧ (2 : Nat) ≠ 0 + 1 := by
  decide

/-- Witness for the amended C4 theorem at a concrete committed result. -/
theorem c4_version_increment_amended_witness :
    (getA (commitTx c4res []).2 "A").ver
      = (getA ([] : Store) "A").ver
        + (c4res.updates.map AccountUpdate.name).count "A" :=
  (c4_version_increment_amended c4res [] "A").2 (by decide)

/-- C5: `commitTx` returns Conflict exactly when some recorded read's
version differs from the account's current version; this check precedes
the error/empty short-circuit, so a result with a non-nil error but a
stale read is retried rather than finalized, and a TerminalFailure is
returned only when every read version matches. -/
theorem c5_conflict_precedence (r : TxResult) (s : Store) :
    ((commitTx r s).1 = Outcome.conflict
      ↔ ∃ p ∈ r.reads, (getA s p.1).ver ≠ p.2)
    ∧ ((r.err = true ∨ r.updates = []) →
        (commitTx r s).1 ≠ Outcome.conflict →
        (commitTx r s).1 = Outcome.terminal)
    ∧ ((commitTx r s).1 = Outcome.terminal →
        ∀ p ∈ r.reads, (getA s p.1).ver = p.2) := by
  refine ⟨⟨commitTx_conflict_exists, fun h => by rw [commitTx_stale h]⟩, ?_, ?_⟩
  · intro he hnc
    by_cases h1 : ∃ p ∈ r.reads, (getA s p.1).ver ≠ p.2
    · exact absurd (by rw [commitTx_stale h1]) hnc
    · rw [commitTx_skip h1 he]
  · intro ht p hp
    by_contra hne
    rw [commitTx_stale ⟨p, hp, hne⟩] at ht
    exact absurd ht (by simp)

/-- Witness for C5: a result with a non-nil error and a stale read (the
store holds `A` at version 0, the read recorded version 3) is classified
as Conflict, i.e. retried despite its error. -/
theorem c5_conflict_precedence_witness :
    (commitTx ⟨[], [("A", 3)], true⟩ [("A", ⟨0, 0⟩)]).1 = Outcome.conflict :=
  (c5_conflict_precedence ⟨[], [("A", 3)], true⟩ [("A", ⟨0, 0⟩)]).1.2
    ⟨("A", 3), by decide, by decide⟩

/-- C6 (amended): a Conflict or TerminalFailure validation modifies no
account's balance or version — every defaulted account read is unchanged
and the store is exactly the input with absent touched accounts lazily
created at balance 0, version 0 by the lock-acquisition `ensureAcct`
calls; those creations are visible in later snapshots, so the stored
state is not literally identical. -/
theorem c6_error_frame_amended (r : TxResult) (s : Store)
    (h : (commitTx r s).1 ≠ Outcome.committed) :
    (∀ n, getA (commitTx r s).2 n = getA s n)
    ∧ (commitTx r s).2 = ensureAll s (lockNames r) := by
  refine ⟨?_, commitTx_not_committed_store h⟩
  intro n
  rw [commitTx_not_committed_store h, getA_ensureAll]

/-- C6 counterexample: a TerminalFailure validation of a result whose
update names the absent account `Z` leaves all balances and versions
unchanged yet does not leave the global state exactly as it was: `Z` is
created and appears in the snapshot. -/
theorem c6_counterexample :
    (commitTx c6res []).1 = Outcome.terminal
    ∧ (commitTx c6res []).2 ≠ ([] : Store)
    ∧ snapshot (commitTx c6res []).2 ≠ snapshot ([] : Store) := by
  decide

/-- Witness for the amended C6 theorem at the same concrete input. -/
theorem c6_error_frame_amended_witness :
    getA (commitTx c6res []).2 "Z" = getA ([] : Store) "Z" :=
  (c6_error_frame_amended c6res [] (by decide)).1 "Z"

/-- C7: an account named in the read set but in no update is among the
lock-acquisition targets (hence locked and version-validated), and its
balance and version are left unchanged by `commitTx` on every outcome. -/
theorem c7_read_only_frame (r : TxResult) (s : Store) (n : String)
    (hr : n ∈ r.reads.map Prod.fst)
    (hu : n ∉ r.updates.map AccountUpdate.name) :
    getA (commitTx r s).2 n = getA s n ∧ n ∈ lockNames r :=
  ⟨commitTx_getA_not_updated hu s, (mem_lockNames r n).2 (Or.inl hr)⟩

/-- Witness for C7: a committed result that reads `A` but only updates
`B` leaves `A` unchanged while still having locked it. -/
theorem c7_read_only_frame_witness :
    getA (commitTx ⟨[⟨"B", 1⟩], [("A", 0)], false⟩ []).2 "A"
        = getA ([] : Store) "A"
    ∧ "A" ∈ lockNames ⟨[⟨"B", 1⟩], [("A", 0)], false⟩ :=
  c7_read_only_frame ⟨[⟨"B", 1⟩], [("A", 0)], false⟩ [] "A"
    (by decide) (by decide)

/-- C10: the lock-acquisition list of `commitTx` is duplicate-free and
sorted strictly ascending, contains exactly the union of read-set names
and update names, and on every return path each touched account's mutex
is locked exactly once and unlocked exactly once (untouched accounts are
never locked or unlocked). -/
theorem c10_locking_discipline (r : TxResult) (s : Store) (n : String) :
    (lockNames r).Nodup
    ∧ (lockNames r).Sorted strLt
    ∧ (n ∈ lockNames r
        ↔ n ∈ r.reads.map Prod.fst ∨ n ∈ r.updates.map AccountUpdate.name)
    ∧ (commitTxT r s).2.count (LockEv.lock n)
        = (if n ∈ lockNames r then 1 else 0)
    ∧ (commitTxT r s).2.count (LockEv.unlock n)
        = (if n ∈ lockNames r then 1 else 0) := by
  have hnodup : (lockNames r).Nodup :=
    (List.perm_insertionSort _ _).nodup_iff.2 (List.nodup_dedup _)
  have hcount : (lockNames r).count n = (if n ∈ lockNames r then 1 else 0) := by
    split
    · exact List.count_eq_one_of_mem hnodup (by assumption)
    · exact List.count_eq_zero_of_not_mem (by assumption)
  have hlockinj : Function.Injective LockEv.lock := fun a b h => by
    cases h
    rfl
  have hunlockinj : Function.Injective LockEv.unlock := fun a b h => by
    cases h
    rfl
  have hnolock : (List.map LockEv.unlock (lockNames r)).count (LockEv.lock n) = 0 := by
    refine List.count_eq_zero.2 ?_
    intro hmem
    obtain ⟨a, _, hcontra⟩ := List.mem_map.1 hmem
    exact absurd hcontra (by simp)
  have hnounlock : (List.map LockEv.lock (lockNames r)).count (LockEv.unlock n) = 0 := by
    refine List.count_eq_zero.2 ?_
    intro hmem
    obtain ⟨a, _, hcontra⟩ := List.mem_map.1 hmem
    exact absurd hcontra (by simp)
  have hsorted : (lockNames r).Sorted strLt := by
    have hle : (lockNames r).Sorted strLe := List.sorted_insertionSort strLe _
    exact (hle.and hnodup).imp (fun hh => strLt_of_le_ne hh.1 hh.2)
  refine ⟨hnodup, hsorted, mem_lockNames r n, ?_, ?_⟩
  · rw [commitTxT_trace, List.count_append,
      List.count_map_of_injective _ _ hlockinj, hnolock, hcount, Nat.add_zero]
  · rw [commitTxT_trace, List.count_append,
      List.count_map_of_injective _ _ hunlockinj, hnounlock, hcount, Nat.zero_add]

/-- C3 (amended): `GetAccount` returns the account's *current* balance on
every call; only the version is snapshotted, at the first read of each
name (later reads of the same name leave the read map unchanged).
Intra-transaction read stability is enforced afterwards by the commit
validator's version check, not by returning a stale balance. -/
theorem c3_read_snapshot_amended (s : Store) (reads : Reads) (n : String) :
    (getAccount s reads n).1.1 = (getA s n).bal
    ∧ ((alookup reads n).isSome = true → (getAccount s reads n).1.2 = reads)
    ∧ (alookup reads n = none →
        (getAccount s reads n).1.2 = reads ++ [(n, (getA s n).ver)]) := by
  refine ⟨?_, ?_, ?_⟩
  · show (getA (ensureAcct s n) n).bal = (getA s n).bal
    rw [getA_ensureAcct]
  · intro h
    show (if (alookup reads n).isSome then reads
      else reads ++ [(n, (getA (ensureAcct s n) n).ver)]) = reads
    rw [if_pos h]
  · intro h
    show (if (alookup reads n).isSome then reads
      else reads ++ [(n, (getA (ensureAcct s n) n).ver)]) = _
    rw [getA_ensureAcct, if_neg (by rw [h]; simp)]

/-- C3 counterexample: the first read of `A` (store at balance 5,
version 0) records version 0 and returns 5; after an interleaved commit
moves `A` to balance 7, the second read of the same attempt (same read
map) returns the current balance 7, not the first-read balance 5. -/
theorem c3_counterexample :
    (getAccount c3store0 [] "A").1.1 = 5
    ∧ (getAccount c3store0 [] "A").1.2 = [("A", 0)]
    ∧ (getAccount c3store1 [("A", 0)] "A").1.1 = 7
    ∧ (7 : Nat) ≠ 5 := by
  decide

/-- Witness for the amended C3 theorem: the second read leaves the read
map unchanged. -/
theorem c3_read_snapshot_amended_witness :
    (getAccount c3store1 [("A", 0)] "A").1.2 = [("A", 0)] :=
  (c3_read_snapshot_amended c3store1 [("A", 0)] "A").2.1 (by decide)

/-- C9: `GetAccount` on a name absent from the store returns balance 0
and creates a zero-balance, zero-version entry; consequently a block
whose only transaction debits the unknown `X` terminal-fails yet leaves
`X` at balance 0 in the final snapshot, while a block whose only
transaction credits the unknown `Y` commits and creates it. -/
theorem c9_unknown_account (s : Store) (n : String) (h : alookup s n = none) :
    ((getAccount s [] n).1.1 = 0
      ∧ (getAccount s [] n).2 = s ++ [(n, Acct.zero)]
      ∧ getA (getAccount s [] n).2 n = Acct.zero)
    ∧ (executeBlock [withdrawP "X" 7] freshSched 2 []).map snapshot
        = some [("X", 0)]
    ∧ (executeBlock [depositP "Y" 5] freshSched 2 []).map snapshot
        = some [("Y", 5)] := by
  refine ⟨⟨?_, ?_, ?_⟩, by decide, by decide⟩
  · show (getA (ensureAcct s n) n).bal = 0
    rw [getA_ensureAcct]
    unfold getA
    rw [h]
    rfl
  · show ensureAcct s n = _
    unfold ensureAcct
    rw [if_neg (by rw [h]; simp)]
  · show getA (ensureAcct s n) n = Acct.zero
    rw [getA_ensureAcct]
    unfold getA
    rw [h]
    rfl

/-- Witness for C9 on the empty store. -/
theorem c9_unknown_account_witness :
    (getAccount ([] : Store) [] "X").1.1 = 0 :=
  (c9_unknown_account [] "X" rfl).1.1

/-- C8 (amended): for a successful Transfer or BatchTransfer the sum of
emitted `BalanceChange`s is zero modulo `2^64` (Go's 64-bit `int`
arithmetic wraps) and exactly zero when the amounts stay below `2^63`;
for a successful FeeSplit the sum is `-(fee - (fee/n)*n)` modulo `2^64`,
and exactly that value when `fee < 2^63`. -/
theorem c8_conservation_amended (f t acct : String)
    (tos receivers : List String) (v amount fee : Nat) (s : Store) :
    ((runTx (transferP f t v) s []).1.2 = false →
      sumDeltas (runTx (transferP f t v) s []).1.1 % (W64 : Int) = 0
      ∧ (v < 2 ^ 63 → sumDeltas (runTx (transferP f t v) s []).1.1 = 0))
    ∧ ((runTx (batchTransferP f tos amount) s []).1.2 = false →
      sumDeltas (runTx (batchTransferP f tos amount) s []).1.1 % (W64 : Int) = 0
      ∧ (tos.length * amount < 2 ^ 63 →
          sumDeltas (runTx (batchTransferP f tos amount) s []).1.1 = 0))
    ∧ ((runTx (feeSplitP acct fee receivers) s []).1.2 = false →
      sumDeltas (runTx (feeSplitP acct fee receivers) s []).1.1 % (W64 : Int)
        = (-((fee : Int) - ↑(fee / receivers.length) * ↑receivers.length))
            % (W64 : Int)
      ∧ (fee < 2 ^ 63 →
          sumDeltas (runTx (feeSplitP acct fee receivers) s []).1.1
            = -((fee : Int) - ↑(fee / receivers.length) * ↑receivers.length))) := by
  refine ⟨?_, ?_, ?_⟩
  · intro hsucc
    by_cases hb : (getA s f).bal < v
    · simp [transferP, runTx, alookup, hb] at hsucc
    · have hrun : runTx (transferP f t v) s []
          = (([⟨f, wrap64 (-(toInt64 v))⟩, ⟨t, toInt64 v⟩], false),
              [(f, (getA s f).ver)]) := by
        simp [transferP, runTx, alookup, hb]
      rw [hrun]
      constructor
      · have h1 : wrap64 (-(toInt64 v)) + toInt64 v
            ≡ -(v : Int) + (v : Int) [ZMOD (W64 : Int)] :=
          ((wrap64_modEq _).trans (toInt64_modEq v).neg).add (toInt64_modEq v)
        have h2 : (-(v : Int) + (v : Int)) % (W64 : Int) = 0 := by simp
        calc sumDeltas [⟨f, wrap64 (-(toInt64 v))⟩, ⟨t, toInt64 v⟩] % (W64 : Int)
            = (wrap64 (-(toInt64 v)) + toInt64 v) % (W64 : Int) := by
              simp [sumDeltas]
          _ = (-(v : Int) + (v : Int)) % (W64 : Int) := h1
          _ = 0 := h2
      · intro hv
        rw [toInt64_eq_of_lt hv, wrap64_eq_of (by omega) (by omega)]
        simp [sumDeltas]
  · intro hsucc
    by_cases hb : (getA s f).bal < tos.length * amount % W64
    · simp [batchTransferP, runTx, alookup, hb] at hsucc
    · have hrun : runTx (batchTransferP f tos amount) s []
          = ((⟨f, wrap64 (-(toInt64 (tos.length * amount % W64)))⟩
                :: tos.map (fun t' => ⟨t', toInt64 amount⟩), false),
              [(f, (getA s f).ver)]) := by
        simp [batchTransferP, runTx, alookup, hb]
      rw [hrun]
      have hsum : sumDeltas
          (⟨f, wrap64 (-(toInt64 (tos.length * amount % W64)))⟩
            :: tos.map (fun t' => ⟨t', toInt64 amount⟩))
          = wrap64 (-(toInt64 (tos.length * amount % W64)))
            + (tos.length : Int) * toInt64 amount := by
        simp only [sumDeltas, List.map_cons, List.map_map, List.sum_cons]
        rw [show (AccountUpdate.balanceChange ∘ fun t' : String =>
            (⟨t', toInt64 amount⟩ : AccountUpdate)) = fun _ => toInt64 amount from rfl,
          sum_map_const]
      rw [hsum]
      constructor
      · have hT : ((tos.length * amount % W64 : Nat) : Int)
            ≡ (tos.length : Int) * amount [ZMOD (W64 : Int)] :=
          natmulmod_cast tos.length amount
        have h1 : wrap64 (-(toInt64 (tos.length * amount % W64)))
              + (tos.length : Int) * toInt64 amount
            ≡ -((tos.length : Int) * amount)
              + (tos.length : Int) * amount [ZMOD (W64 : Int)] :=
          ((wrap64_modEq _).trans
            ((toInt64_modEq _).trans hT).neg).add
            ((Int.ModEq.refl _).mul (toInt64_modEq amount))
        have h2 : (-((tos.length : Int) * amount)
            + (tos.length : Int) * amount) % (W64 : Int) = 0 := by simp
        calc (wrap64 (-(toInt64 (tos.length * amount % W64)))
              + (tos.length : Int) * toInt64 amount) % (W64 : Int)
            = (-((tos.length : Int) * amount)
              + (tos.length : Int) * amount) % (W64 : Int) := h1
          _ = 0 := h2
      · intro hlt
        have hT : tos.length * amount % W64 = tos.length * amount :=
          Nat.mod_eq_of_lt (by simp only [W64]; omega)
        rcases Nat.eq_zero_or_pos tos.length with hl0 | hlpos
        · rw [hT, hl0]
          norm_num [toInt64, wrap64, W64]
        · have hamt : amount < 2 ^ 63 := by
            have hle : amount ≤ tos.length * amount :=
              Nat.le_mul_of_pos_left _ hlpos
            omega
          rw [hT, toInt64_eq_of_lt hlt, toInt64_eq_of_lt hamt,
            wrap64_eq_of (by omega) (by omega)]
          push_cast
          ring
  · intro hsucc
    by_cases hb : (getA s acct).bal < fee
    · simp [feeSplitP, runTx, alookup, hb] at hsucc
    · by_cases hn : receivers.length = 0
      · simp [feeSplitP, runTx, alookup, hb, hn] at hsucc
      · have hrun : runTx (feeSplitP acct fee receivers) s []
            = ((⟨acct, wrap64 (-(toInt64 fee))⟩
                  :: receivers.map (fun r' => ⟨r', toInt64 (fee / receivers.length)⟩),
                false),
                [(acct, (getA s acct).ver)]) := by
          simp [feeSplitP, runTx, alookup, hb, hn]
        rw [hrun]
        have hsum : sumDeltas
            (⟨acct, wrap64 (-(toInt64 fee))⟩
              :: receivers.map (fun r' => ⟨r', toInt64 (fee / receivers.length)⟩))
            = wrap64 (-(toInt64 fee))
              + (receivers.length : Int) * toInt64 (fee / receivers.length) := by
          simp only [sumDeltas, List.map_cons, List.map_map, List.sum_cons]
          rw [show (AccountUpdate.balanceChange ∘ fun r' : String =>
              (⟨r', toInt64 (fee / receivers.length)⟩ : AccountUpdate))
              = fun _ => toInt64 (fee / receivers.length) from rfl,
            sum_map_const]
        rw [hsum]
        constructor
        · have h1 : wrap64 (-(toInt64 fee))
                + (receivers.length : Int) * toInt64 (fee / receivers.length)
              ≡ -(fee : Int) + (receivers.length : Int) * ↑(fee / receivers.length)
                [ZMOD (W64 : Int)] :=
            ((wrap64_modEq _).trans (toInt64_modEq fee).neg).add
              ((Int.ModEq.refl _).mul (toInt64_modEq (fee / receivers.length)))
          have h2 : -(fee : Int) + (receivers.length : Int) * ↑(fee / receivers.length)
              = -((fee : Int) - ↑(fee / receivers.length) * ↑receivers.length) := by
            ring
          calc (wrap64 (-(toInt64 fee))
                + (receivers.length : Int) * toInt64 (fee / receivers.length))
                  % (W64 : Int)
              = (-(fee : Int)
                  + (receivers.length : Int) * ↑(fee / receivers.length))
                  % (W64 : Int) := h1
            _ = (-((fee : Int) - ↑(fee / receivers.length) * ↑receivers.length))
                  % (W64 : Int) := by rw [h2]
        · intro hfee
          have hper : fee / receivers.length < 2 ^ 63 :=
            lt_of_le_of_lt (Nat.div_le_self fee receivers.length) hfee
          rw [toInt64_eq_of_lt hfee, toInt64_eq_of_lt hper,
            wrap64_eq_of (by omega) (by omega)]
          ring

/-- C8 counterexample: a Transfer of `2^63` on an account holding `2^63`
succeeds, but Go's `int` conversion and wrapping negation turn both
deltas into `-2^63`, so the exact sum of the emitted `BalanceChange`s is
`-2^64`, not zero. -/
theorem c8_counterexample :
    (runTx (transferP "A" "B" (2 ^ 63)) c8store []).1.2 = false
    ∧ sumDeltas (runTx (transferP "A" "B" (2 ^ 63)) c8store []).1.1 = -(2 ^ 64)
    ∧ (-(2 ^ 64) : Int) ≠ 0 := by
  decide

/-- Witness for the amended C8 theorem on a small successful Transfer. -/
theorem c8_conservation_amended_witness :
    sumDeltas (runTx (transferP "A" "B" 5) c8store []).1.1 = 0 :=
  ((c8_conservation_amended "A" "B" "X" [] [] 5 0 0 c8store).1 (by decide)).2
    (by norm_num)

/-- C1 (amended): every terminating run of the block executor — under any
speculation schedule, which is how worker parallelism reaches the
sequencer — yields a final state whose per-account balances (absent
accounts reading 0) equal those of the sequential evaluator that runs
each transaction against the current state in block order and skips
transactions that errored, emitted no updates, or failed the per-delta
balance check; under the fresh schedule (every attempt evaluated against
the commit-time state) the final store is exactly the sequential
evaluator's. -/
theorem c1_determinism_amended (txs : List TxProg) (sched : Nat → Option Nat)
    (fuel : Nat) (s₀ out : Store)
    (h : executeBlock txs sched fuel s₀ = some out) :
    (∀ n, (getA out n).bal = (getA (seqEvalA txs s₀) n).bal)
    ∧ executeBlock txs freshSched (txs.length + 1) s₀
        = some (seqEvalA txs s₀) := by
  constructor
  · intro n
    have hrun := execLoop_getA txs sched fuel 0 [s₀] s₀ out
      (by
        intro tt htt
        obtain rfl := List.mem_singleton.1 htt
        exact chainLe_refl _)
      h n
    rw [List.drop_zero] at hrun
    rw [hrun]
  · have hfr := execLoop_fresh txs txs.length 0 [s₀] s₀ (by omega)
    rw [List.drop_zero] at hfr
    exact hfr

/-- C1 counterexample: (i) a block whose only transaction emits a bare
debit of the absent account `A` with no error: the executor
terminal-fails it at the per-delta balance check (final snapshot
`A = 0`), while the claim's sequential evaluator — which skips only on
error or empty updates — applies the delta (final snapshot
`A = 2^64 − 5` after unsigned wrap); (ii) a run of `cexBlock` in which
the second transaction's first attempt was evaluated against the
pre-commit state: the discarded speculative attempt reads and thereby
creates account `Z`, which the sequential evaluator never creates; the
same block under the fresh schedule also yields a different snapshot, so
the output is schedule-dependent. -/
theorem c1_counterexample :
    (executeBlock [debitOnlyP] freshSched 2 []).map snapshot
        ≠ some (snapshot (seqEvalClaim [debitOnlyP] []))
    ∧ (executeBlock cexBlock cexSched 4 cexStore).map snapshot
        ≠ some (snapshot (seqEvalClaim cexBlock cexStore))
    ∧ (executeBlock cexBlock cexSched 4 cexStore).map snapshot
        ≠ (executeBlock cexBlock freshSched 3 cexStore).map snapshot := by
  decide

/-- Witness for the amended C1 theorem: a one-transfer block executed
with the fresh schedule lands exactly on the sequential evaluation. -/
theorem c1_determinism_amended_witness :
    executeBlock [transferP "A" "B" 5] freshSched 2 [("A", ⟨20, 0⟩)]
      = some (seqEvalA [transferP "A" "B" 5] [("A", ⟨20, 0⟩)]) :=
  (c1_determinism_amended [transferP "A" "B" 5] freshSched 2 [("A", ⟨20, 0⟩)]
    [("A", ⟨15, 1⟩), ("B", ⟨5, 1⟩)] (by decide)).2

end TxExecutor
